import Mathlib

/-!
Verification of the conflict-chunk engine of `agent/tool_utils.go`
(`FindConflictChunks`, `HasMergeConflicts`, `ReplaceConflictChunk`).

Go strings are modelled as lists of characters (`Str`).  The file content is
split into lines exactly as `strings.Split(content, "\n")` does (`splitNl`),
and joined back exactly as `strings.Join(lines, "\n")` does (`joinNl`).
The scanner loop of `FindConflictChunks` is modelled as an explicit
state-passing fold (`scanStep` / `processLines`) over the lines.
-/

deriving instance DecidableEq for Except

namespace GitSynth

/-- A Go string, modelled as a list of characters. -/
abbrev Str := List Char

/-- `strings.Contains(s, sub)`: some suffix of `s` starts with `sub`. -/
def strContains (sub : Str) : Str → Bool
  | [] => sub.isEmpty
  | c :: t => sub.isPrefixOf (c :: t) || strContains sub t

/-- `strings.Split(s, "\n")`: split on every newline; `splitNl [] = [[]]`
matches Go's `strings.Split("", "\n") == []string{""}`. -/
def splitNl : Str → List Str
  | [] => [[]]
  | c :: rest =>
    if c = '\n' then [] :: splitNl rest
    else
      match splitNl rest with
      | [] => [[c]]
      | l :: ls => (c :: l) :: ls

/-- `strings.Join(lines, "\n")`. -/
def joinNl : List Str → Str
  | [] => []
  | [x] => x
  | x :: xs => x ++ '\n' :: joinNl xs

/-- The line prefix `"<<<<<<<"` opening a conflict region. -/
def startMarker : Str := ['<', '<', '<', '<', '<', '<', '<']

/-- The line prefix `"======="` dividing ours from theirs. -/
def dividerMarker : Str := ['=', '=', '=', '=', '=', '=', '=']

/-- The line prefix `">>>>>>>"` closing a conflict region. -/
def endMarker : Str := ['>', '>', '>', '>', '>', '>', '>']

/-- `strings.HasPrefix(line, "<<<<<<<")`. -/
def isStart (l : Str) : Bool := startMarker.isPrefixOf l

/-- `strings.HasPrefix(line, "=======")`. -/
def isDivider (l : Str) : Bool := dividerMarker.isPrefixOf l

/-- `strings.HasPrefix(line, ">>>>>>>")`. -/
def isEnd (l : Str) : Bool := endMarker.isPrefixOf l

/-- A line carrying none of the three marker prefixes. -/
def plainLine (l : Str) : Bool := !isStart l && !isDivider l && !isEnd l

/-- The `ConflictChunk` struct of `tool_utils.go`. -/
structure ConflictChunk where
  id : Nat
  baseCode : Str
  incomingCode : Str
  startLine : Nat
  endLine : Nat
  deriving DecidableEq

/-- The Go zero value of `ConflictChunk`. -/
def zeroChunk : ConflictChunk := ⟨0, [], [], 0, 0⟩

/-- The errors `FindConflictChunks` can return. -/
inductive ScanError where
  | nested
  | unclosed
  deriving DecidableEq

/-- The loop state of `FindConflictChunks`: the `inConflict` flag, the
`currentChunk` under construction, the `baseLines` / `incomingLines`
accumulators, the `currentID` counter and the `chunks` emitted so far. -/
structure ScanState where
  inConflict : Bool
  cur : ConflictChunk
  baseLines : List Str
  incomingLines : List Str
  currentID : Nat
  chunks : List ConflictChunk
  deriving DecidableEq

/-- The state before the loop of `FindConflictChunks` runs. -/
def initState : ScanState := ⟨false, zeroChunk, [], [], 0, []⟩

/-- One iteration of the loop body of `FindConflictChunks`, for the line
`line` at 1-based number `lineNum`.  Branches in the source's order. -/
def scanStep (st : ScanState) (lineNum : Nat) (line : Str) :
    Except ScanError ScanState :=
  if isStart line then
    if st.inConflict then .error .nested
    else .ok { st with
      inConflict := true,
      cur := { id := st.currentID, baseCode := [], incomingCode := [],
               startLine := lineNum, endLine := 0 } }
  else if st.inConflict && isDivider line then
    .ok { st with cur := { st.cur with baseCode := joinNl st.baseLines },
                  baseLines := [] }
  else if st.inConflict && isEnd line then
    let closed : ConflictChunk :=
      { st.cur with incomingCode := joinNl st.incomingLines, endLine := lineNum }
    .ok { st with inConflict := false, cur := closed,
                  chunks := st.chunks ++ [closed],
                  incomingLines := [], currentID := st.currentID + 1 }
  else if st.inConflict then
    if st.baseLines = [] ∧ st.cur.baseCode = [] then
      .ok { st with baseLines := st.baseLines ++ [line] }
    else if ¬ st.cur.baseCode = [] then
      .ok { st with incomingLines := st.incomingLines ++ [line] }
    else
      .ok { st with baseLines := st.baseLines ++ [line] }
  else
    .ok st

/-- The whole loop of `FindConflictChunks`, starting at line number `n`. -/
def processLines : List Str → Nat → ScanState → Except ScanError ScanState
  | [], _, st => .ok st
  | l :: ls, n, st =>
    match scanStep st n l with
    | .error e => .error e
    | .ok st1 => processLines ls (n + 1) st1

/-- `FindConflictChunks`, on the already-split lines. -/
def findConflictChunksLines (lines : List Str) :
    Except ScanError (List ConflictChunk) :=
  match processLines lines 1 initState with
  | .error e => .error e
  | .ok st => if st.inConflict then .error .unclosed else .ok st.chunks

/-- `FindConflictChunks` of `tool_utils.go`. -/
def FindConflictChunks (content : Str) : Except ScanError (List ConflictChunk) :=
  findConflictChunksLines (splitNl content)

/-- The pure heart of `HasMergeConflicts` of `tool_utils.go`:
`strings.Contains(content, "<<<<<<<")` on the file's bytes. -/
def HasMergeConflicts (content : Str) : Bool :=
  strContains startMarker content

/-- The errors `ReplaceConflictChunk` can return (I/O failures aside). -/
inductive ReplaceError where
  | scanFailed (e : ScanError)
  | chunkNotFound (chunkID : Int) (numChunks : Nat)
  deriving DecidableEq

/-- The pure content transformation of `ReplaceConflictChunk` of
`tool_utils.go`: re-scan, range-check the id, splice the new lines over the
chunk's `[StartLine, EndLine]` span. -/
def ReplaceConflictChunk (content : Str) (chunkID : Int) (newContent : Str) :
    Except ReplaceError Str :=
  match FindConflictChunks content with
  | .error e => .error (.scanFailed e)
  | .ok chunks =>
    if chunkID < 0 ∨ (chunks.length : Int) ≤ chunkID then
      .error (.chunkNotFound chunkID chunks.length)
    else
      let target := chunks.getD chunkID.toNat zeroChunk
      let lines := splitNl content
      .ok (joinNl (lines.take (target.startLine - 1) ++ splitNl newContent ++
                   lines.drop target.endLine))

/-- `ReplaceConflictChunk` at the file level: `os.WriteFile` runs only on the
success path, so on every error the file keeps its previous bytes. -/
def runReplace (file : Str) (chunkID : Int) (newContent : Str) :
    Str × Option ReplaceError :=
  match ReplaceConflictChunk file chunkID newContent with
  | .ok newFile => (newFile, none)
  | .error e => (file, some e)

/-! ### Descriptions of well-formed inputs and malformed inputs -/

/-- The chunks carry consecutive ids starting at `k`. -/
def idsFrom : Nat → List ConflictChunk → Prop
  | _, [] => True
  | k, c :: cs => c.id = k ∧ idsFrom (k + 1) cs

/-- The chunks' `[startLine, endLine]` spans sit strictly after `lo`, chain in
order without overlap, and end by `hi`. -/
def spansFrom : Nat → Nat → List ConflictChunk → Prop
  | _, _, [] => True
  | lo, hi, c :: cs =>
    lo < c.startLine ∧ c.startLine ≤ c.endLine ∧ c.endLine ≤ hi ∧
      spansFrom c.endLine hi cs

/-- End line of the last chunk, or `lo` when there is none. -/
def lastEnd : Nat → List ConflictChunk → Nat
  | lo, [] => lo
  | _, c :: cs => lastEnd c.endLine cs

/-- The loop invariant of `FindConflictChunks`, after `p` processed lines. -/
def Inv (st : ScanState) (p : Nat) : Prop :=
  st.currentID = st.chunks.length ∧
  idsFrom 0 st.chunks ∧
  spansFrom 0 p st.chunks ∧
  lastEnd 0 st.chunks ≤ p ∧
  (st.inConflict = true →
    st.cur.id = st.currentID ∧
    lastEnd 0 st.chunks < st.cur.startLine ∧
    1 ≤ st.cur.startLine ∧ st.cur.startLine ≤ p)

/-- A well-formed conflict region, as a block of lines: one start-marker line,
the ours lines, one divider line, the theirs lines, one end-marker line. -/
structure Region where
  startL : Str
  ours : List Str
  divL : Str
  theirs : List Str
  endL : Str

/-- The marker lines carry the right prefixes and the content lines carry
none of the three marker prefixes. -/
def Region.valid (r : Region) : Prop :=
  isStart r.startL = true ∧ isDivider r.divL = true ∧ isEnd r.endL = true ∧
  (∀ l ∈ r.ours, plainLine l = true) ∧ (∀ l ∈ r.theirs, plainLine l = true)

/-- The lines of a region, top to bottom. -/
def Region.lines (r : Region) : List Str :=
  r.startL :: (r.ours ++ r.divL :: (r.theirs ++ [r.endL]))

/-- Interleave regions with the marker-free segments that follow each. -/
def assemble : List (Region × List Str) → List Str
  | [] => []
  | (r, seg) :: rest => r.lines ++ (seg ++ assemble rest)

/-- All regions structurally valid and all separating segments free of
start-marker lines. -/
def segsOK : List (Region × List Str) → Prop
  | [] => True
  | (r, seg) :: rest =>
    r.valid ∧ (∀ l ∈ seg, isStart l = false) ∧ segsOK rest

/-- The chunk list a well-formed input should scan to: region `k` beginning
at line `pos` yields the chunk `⟨k, join ours, join theirs, pos, pos +
|ours| + |theirs| + 2⟩`. -/
def expectedChunks : Nat → Nat → List (Region × List Str) → List ConflictChunk
  | _, _, [] => []
  | pos, k, (r, seg) :: rest =>
    ⟨k, joinNl r.ours, joinNl r.theirs, pos,
      pos + r.ours.length + r.theirs.length + 2⟩ ::
      expectedChunks (pos + r.ours.length + r.theirs.length + 3 + seg.length)
        (k + 1) rest

/-- Some start-marker line is never followed by an end-marker line. -/
def unclosedInput (ls : List Str) : Prop :=
  ∃ pre l post, ls = pre ++ l :: post ∧ isStart l = true ∧
    ∀ m ∈ post, isEnd m = false

/-- Some start-marker line is preceded by no end-marker line. -/
def unguardedStart (ls : List Str) : Prop :=
  ∃ pre l post, ls = pre ++ l :: post ∧ isStart l = true ∧
    ∀ m ∈ pre, isEnd m = false

/-- A second start-marker line appears while the region opened by an earlier
start-marker line is still open: two start-marker lines with no end-marker
line strictly between them. -/
def nestedInput (ls : List Str) : Prop :=
  ∃ pre l rest, ls = pre ++ l :: rest ∧ isStart l = true ∧ unguardedStart rest

/-! ### Lemmas about `splitNl` and `joinNl` -/

theorem splitNl_ne_nil (s : Str) : splitNl s ≠ [] := by
  induction s with
  | nil => simp [splitNl]
  | cons c t ih =>
    simp only [splitNl]
    split
    · simp
    · cases h : splitNl t with
      | nil => simp
      | cons l ls => simp [h]

theorem no_newline_of_mem_splitNl {s : Str} {l : Str} (h : l ∈ splitNl s) :
    '\n' ∉ l := by
  induction s generalizing l with
  | nil =>
    simp [splitNl] at h
    simp [h]
  | cons c t ih =>
    simp only [splitNl] at h
    by_cases hc : c = '\n'
    · simp [hc] at h
      rcases h with h | h
      · simp [h]
      · exact ih h
    · simp [hc] at h
      cases hs : splitNl t with
      | nil => exact absurd hs (splitNl_ne_nil t)
      | cons l0 ls =>
        rw [hs] at h
        simp at h
        rcases h with h | h
        · subst h
          have hl0 : '\n' ∉ l0 := ih (by simp [hs])
          intro hmem
          rcases List.mem_cons.mp hmem with h | h
          · exact hc h.symm
          · exact hl0 h
        · exact ih (by simp [hs, h])

theorem splitNl_of_no_newline {s : Str} (h : '\n' ∉ s) : splitNl s = [s] := by
  induction s with
  | nil => simp [splitNl]
  | cons c t ih =>
    simp at h
    simp only [splitNl, if_neg (Ne.symm h.1)]
    rw [ih h.2]

theorem pre_cons {l t : Str} (c : Char) (h : l <+: t) : c :: l <+: c :: t := by
  obtain ⟨r, hr⟩ := h
  exact ⟨r, by simp [hr]⟩

theorem splitNl_append_cons {x t : Str} (h : '\n' ∉ x) :
    splitNl (x ++ '\n' :: t) = x :: splitNl t := by
  induction x with
  | nil => simp [splitNl]
  | cons c x' ih =>
    simp at h
    have step : splitNl (c :: x' ++ '\n' :: t) =
        match splitNl (x' ++ '\n' :: t) with
        | [] => [[c]]
        | l :: ls => (c :: l) :: ls := by
      simp only [List.cons_append, splitNl, if_neg (Ne.symm h.1)]
      rfl
    rw [step, ih h.2]

theorem joinNl_cons {x : Str} {xs : List Str} (h : xs ≠ []) :
    joinNl (x :: xs) = x ++ '\n' :: joinNl xs := by
  cases xs with
  | nil => exact absurd rfl h
  | cons y ys => rfl

theorem splitNl_joinNl {xss : List Str} (hne : xss ≠ [])
    (h : ∀ xs ∈ xss, '\n' ∉ xs) : splitNl (joinNl xss) = xss := by
  induction xss with
  | nil => exact absurd rfl hne
  | cons x xs ih =>
    cases xs with
    | nil =>
      have hx : '\n' ∉ x := h x (by simp)
      simp [joinNl, splitNl_of_no_newline hx]
    | cons y ys =>
      rw [joinNl_cons (by simp)]
      rw [splitNl_append_cons (h x (by simp))]
      rw [ih (by simp) (fun xs hxs => h xs (by simp [hxs]))]

theorem head_splitNl_pre {s l : Str} {ls : List Str}
    (h : splitNl s = l :: ls) : l <+: s := by
  induction s generalizing l ls with
  | nil =>
    simp [splitNl] at h
    simp [h.1]
  | cons c t ih =>
    simp only [splitNl] at h
    by_cases hc : c = '\n'
    · simp [hc] at h
      simp [h.1]
    · simp [hc] at h
      cases hs : splitNl t with
      | nil => exact absurd hs (splitNl_ne_nil t)
      | cons l0 ls0 =>
        rw [hs] at h
        simp at h
        rcases h with ⟨h1, _⟩
        subst h1
        exact pre_cons c (ih hs)

theorem infix_of_mem_splitNl {s l : Str} (h : l ∈ splitNl s) : l <:+: s := by
  induction s generalizing l with
  | nil =>
    simp [splitNl] at h
    simp [h]
  | cons c t ih =>
    simp only [splitNl] at h
    by_cases hc : c = '\n'
    · simp [hc] at h
      rcases h with h | h
      · simp [h]
      · exact List.infix_cons (ih h)
    · simp [hc] at h
      cases hs : splitNl t with
      | nil => exact absurd hs (splitNl_ne_nil t)
      | cons l0 ls0 =>
        rw [hs] at h
        simp at h
        rcases h with h | h
        · subst h
          exact (pre_cons c (head_splitNl_pre hs)).isInfix
        · exact List.infix_cons (ih (by simp [hs, h]))

/-! ### Marker predicates exclude one another -/

theorem not_isStart_of_isDivider {l : Str} (h : isDivider l = true) :
    isStart l = false := by
  cases l with
  | nil => simp [isDivider, dividerMarker, List.isPrefixOf] at h
  | cons c t =>
    simp [isDivider, dividerMarker, List.isPrefixOf] at h
    rcases h with ⟨h1, -⟩
    subst h1
    rfl

theorem not_isStart_of_isEnd {l : Str} (h : isEnd l = true) :
    isStart l = false := by
  cases l with
  | nil => simp [isEnd, endMarker, List.isPrefixOf] at h
  | cons c t =>
    simp [isEnd, endMarker, List.isPrefixOf] at h
    rcases h with ⟨h1, -⟩
    subst h1
    rfl

theorem not_isDivider_of_isEnd {l : Str} (h : isEnd l = true) :
    isDivider l = false := by
  cases l with
  | nil => simp [isEnd, endMarker, List.isPrefixOf] at h
  | cons c t =>
    simp [isEnd, endMarker, List.isPrefixOf] at h
    rcases h with ⟨h1, -⟩
    subst h1
    rfl

theorem plain_parts {l : Str} (h : plainLine l = true) :
    isStart l = false ∧ isDivider l = false ∧ isEnd l = false := by
  simp [plainLine] at h
  exact ⟨h.1.1, h.1.2, h.2⟩

/-! ### One-step characterization of the scanner loop body -/

theorem scanStep_open_start {st : ScanState} {n : Nat} {l : Str}
    (hl : isStart l = true) (hc : st.inConflict = false) :
    scanStep st n l = .ok { st with
      inConflict := true,
      cur := ⟨st.currentID, [], [], n, 0⟩ } := by
  simp [scanStep, hl, hc]

theorem scanStep_nested {st : ScanState} {n : Nat} {l : Str}
    (hl : isStart l = true) (hc : st.inConflict = true) :
    scanStep st n l = .error .nested := by
  simp [scanStep, hl, hc]

theorem scanStep_divider {st : ScanState} {n : Nat} {l : Str}
    (hl : isDivider l = true) (hc : st.inConflict = true) :
    scanStep st n l = .ok { st with
      cur := { st.cur with baseCode := joinNl st.baseLines },
      baseLines := [] } := by
  simp [scanStep, not_isStart_of_isDivider hl, hl, hc]

theorem scanStep_end {st : ScanState} {n : Nat} {l : Str}
    (hl : isEnd l = true) (hc : st.inConflict = true) :
    scanStep st n l = .ok { st with
      inConflict := false,
      cur := { st.cur with incomingCode := joinNl st.incomingLines, endLine := n },
      chunks := st.chunks ++
        [{ st.cur with incomingCode := joinNl st.incomingLines, endLine := n }],
      incomingLines := [],
      currentID := st.currentID + 1 } := by
  simp [scanStep, not_isStart_of_isEnd hl, not_isDivider_of_isEnd hl, hl, hc]

theorem scanStep_plain_baseEmpty {st : ScanState} {n : Nat} {l : Str}
    (hl : plainLine l = true) (hc : st.inConflict = true)
    (hb : st.cur.baseCode = []) :
    scanStep st n l = .ok { st with baseLines := st.baseLines ++ [l] } := by
  obtain ⟨h1, h2, h3⟩ := plain_parts hl
  by_cases hbl : st.baseLines = [] <;>
    simp [scanStep, h1, h2, h3, hc, hbl, hb]

theorem scanStep_plain_baseSet {st : ScanState} {n : Nat} {l : Str}
    (hl : plainLine l = true) (hc : st.inConflict = true)
    (hb : ¬ st.cur.baseCode = []) :
    scanStep st n l = .ok { st with incomingLines := st.incomingLines ++ [l] } := by
  obtain ⟨h1, h2, h3⟩ := plain_parts hl
  simp [scanStep, h1, h2, h3, hc, hb]

theorem scanStep_closed_skip {st : ScanState} {n : Nat} {l : Str}
    (hl : isStart l = false) (hc : st.inConflict = false) :
    scanStep st n l = .ok st := by
  simp [scanStep, hl, hc]

theorem scanStep_error_inv {st : ScanState} {n : Nat} {l : Str} {e : ScanError}
    (h : scanStep st n l = .error e) :
    e = .nested ∧ isStart l = true ∧ st.inConflict = true := by
  by_cases h1 : isStart l = true
  · by_cases h2 : st.inConflict = true
    · rw [scanStep_nested h1 h2] at h
      injection h with h
      exact ⟨h.symm, h1, h2⟩
    · replace h2 : st.inConflict = false := by simpa using h2
      rw [scanStep_open_start h1 h2] at h
      cases h
  · replace h1 : isStart l = false := by simpa using h1
    by_cases h2 : st.inConflict = true
    · by_cases h3 : isDivider l = true
      · rw [scanStep_divider h3 h2] at h
        cases h
      · replace h3 : isDivider l = false := by simpa using h3
        by_cases h4 : isEnd l = true
        · rw [scanStep_end h4 h2] at h
          cases h
        · replace h4 : isEnd l = false := by simpa using h4
          have hp : plainLine l = true := by simp [plainLine, h1, h3, h4]
          by_cases h5 : st.cur.baseCode = []
          · rw [scanStep_plain_baseEmpty hp h2 h5] at h
            cases h
          · rw [scanStep_plain_baseSet hp h2 h5] at h
            cases h
    · replace h2 : st.inConflict = false := by simpa using h2
      rw [scanStep_closed_skip h1 h2] at h
      cases h

theorem scanStep_open_keep {st st1 : ScanState} {n : Nat} {l : Str}
    (hc : st.inConflict = true) (he : isEnd l = false)
    (h : scanStep st n l = .ok st1) : st1.inConflict = true := by
  by_cases h1 : isStart l = true
  · rw [scanStep_nested h1 hc] at h
    cases h
  · replace h1 : isStart l = false := by simpa using h1
    by_cases h3 : isDivider l = true
    · rw [scanStep_divider h3 hc] at h
      cases h
      exact hc
    · replace h3 : isDivider l = false := by simpa using h3
      have hp : plainLine l = true := by simp [plainLine, h1, h3, he]
      by_cases h5 : st.cur.baseCode = []
      · rw [scanStep_plain_baseEmpty hp hc h5] at h
        cases h
        exact hc
      · rw [scanStep_plain_baseSet hp hc h5] at h
        cases h
        exact hc

theorem scanStep_chunks {st st1 : ScanState} {n : Nat} {l : Str}
    (h : scanStep st n l = .ok st1) :
    ∃ t, st1.chunks = st.chunks ++ t ∧ ∀ c ∈ t, c.endLine = n := by
  by_cases h1 : isStart l = true
  · by_cases h2 : st.inConflict = true
    · rw [scanStep_nested h1 h2] at h
      cases h
    · replace h2 : st.inConflict = false := by simpa using h2
      rw [scanStep_open_start h1 h2] at h
      cases h
      exact ⟨[], by simp, by simp⟩
  · replace h1 : isStart l = false := by simpa using h1
    by_cases h2 : st.inConflict = true
    · by_cases h3 : isDivider l = true
      · rw [scanStep_divider h3 h2] at h
        cases h
        exact ⟨[], by simp, by simp⟩
      · replace h3 : isDivider l = false := by simpa using h3
        by_cases h4 : isEnd l = true
        · rw [scanStep_end h4 h2] at h
          cases h
          refine ⟨[{ st.cur with
            incomingCode := joinNl st.incomingLines, endLine := n }], rfl, ?_⟩
          intro c hc
          simp at hc
          simp [hc]
        · replace h4 : isEnd l = false := by simpa using h4
          have hp : plainLine l = true := by simp [plainLine, h1, h3, h4]
          by_cases h5 : st.cur.baseCode = []
          · rw [scanStep_plain_baseEmpty hp h2 h5] at h
            cases h
            exact ⟨[], by simp, by simp⟩
          · rw [scanStep_plain_baseSet hp h2 h5] at h
            cases h
            exact ⟨[], by simp, by simp⟩
    · replace h2 : st.inConflict = false := by simpa using h2
      rw [scanStep_closed_skip h1 h2] at h
      cases h
      exact ⟨[], by simp, by simp⟩

/-! ### Lemmas about the full scanner loop -/

theorem processLines_append (xs ys : List Str) (n : Nat) (st : ScanState) :
    processLines (xs ++ ys) n st =
      match processLines xs n st with
      | .error e => .error e
      | .ok st1 => processLines ys (n + xs.length) st1 := by
  induction xs generalizing n st with
  | nil => simp [processLines]
  | cons l ls ih =>
    simp only [List.cons_append, processLines]
    cases hs : scanStep st n l with
    | error e => rfl
    | ok st1 =>
      show processLines (ls ++ ys) (n + 1) st1 =
        match processLines ls (n + 1) st1 with
        | .error e => .error e
        | .ok st2 => processLines ys (n + (l :: ls).length) st2
      rw [ih]
      have harith : n + 1 + ls.length = n + (l :: ls).length := by
        simp [List.length_cons]
        omega
      rw [harith]

theorem processLines_closed_inert {ls : List Str} {n : Nat} {st : ScanState}
    (hs : ∀ l ∈ ls, isStart l = false) (hc : st.inConflict = false) :
    processLines ls n st = .ok st := by
  induction ls generalizing n with
  | nil => rfl
  | cons l ls ih =>
    simp only [processLines]
    rw [scanStep_closed_skip (hs l (by simp)) hc]
    exact ih (fun m hm => hs m (by simp [hm]))

theorem processLines_accum_base {ls : List Str} {n : Nat} {st : ScanState}
    (hp : ∀ l ∈ ls, plainLine l = true) (hc : st.inConflict = true)
    (hb : st.cur.baseCode = []) :
    processLines ls n st = .ok { st with baseLines := st.baseLines ++ ls } := by
  induction ls generalizing n st with
  | nil => simp [processLines]
  | cons l ls ih =>
    simp only [processLines]
    rw [scanStep_plain_baseEmpty (hp l (by simp)) hc hb]
    show processLines ls (n + 1) _ = _
    rw [@ih (n + 1) { st with baseLines := st.baseLines ++ [l] }
      (fun m hm => hp m (by simp [hm])) hc hb]
    simp

theorem processLines_accum_incoming {ls : List Str} {n : Nat} {st : ScanState}
    (hp : ∀ l ∈ ls, plainLine l = true) (hc : st.inConflict = true)
    (hb : ¬ st.cur.baseCode = []) :
    processLines ls n st =
      .ok { st with incomingLines := st.incomingLines ++ ls } := by
  induction ls generalizing n st with
  | nil => simp [processLines]
  | cons l ls ih =>
    simp only [processLines]
    rw [scanStep_plain_baseSet (hp l (by simp)) hc hb]
    show processLines ls (n + 1) _ = _
    rw [@ih (n + 1) { st with incomingLines := st.incomingLines ++ [l] }
      (fun m hm => hp m (by simp [hm])) hc hb]
    simp

theorem processLines_open_keep {ls : List Str} {n : Nat} {st st' : ScanState}
    (he : ∀ l ∈ ls, isEnd l = false) (hc : st.inConflict = true)
    (h : processLines ls n st = .ok st') : st'.inConflict = true := by
  induction ls generalizing n st with
  | nil =>
    cases h
    exact hc
  | cons l ls ih =>
    simp only [processLines] at h
    cases hs : scanStep st n l with
    | error e =>
      rw [hs] at h
      cases h
    | ok st1 =>
      rw [hs] at h
      exact ih (fun m hm => he m (by simp [hm]))
        (scanStep_open_keep hc (he l (by simp)) hs) h

theorem processLines_chunks {ls : List Str} {n : Nat} {st st' : ScanState}
    (h : processLines ls n st = .ok st') :
    ∃ t, st'.chunks = st.chunks ++ t ∧
      ∀ c ∈ t, n ≤ c.endLine ∧ c.endLine < n + ls.length := by
  induction ls generalizing n st with
  | nil =>
    cases h
    exact ⟨[], by simp, by simp⟩
  | cons l ls ih =>
    simp only [processLines] at h
    cases hs : scanStep st n l with
    | error e =>
      rw [hs] at h
      cases h
    | ok st1 =>
      rw [hs] at h
      obtain ⟨t1, ht1, he1⟩ := scanStep_chunks hs
      obtain ⟨t2, ht2, he2⟩ := ih h
      refine ⟨t1 ++ t2, by rw [ht2, ht1, List.append_assoc], ?_⟩
      intro c hc
      rcases List.mem_append.mp hc with hm | hm
      · have := he1 c hm
        simp [List.length_cons]
        omega
      · have := he2 c hm
        simp [List.length_cons]
        omega

theorem processLines_error_nested {ls : List Str} {n : Nat} {st : ScanState}
    {e : ScanError} (h : processLines ls n st = .error e) : e = .nested := by
  induction ls generalizing n st with
  | nil => cases h
  | cons l ls ih =>
    simp only [processLines] at h
    cases hs : scanStep st n l with
    | error e1 =>
      rw [hs] at h
      injection h with h
      rw [← h]
      exact (scanStep_error_inv hs).1
    | ok st1 =>
      rw [hs] at h
      exact ih h

/-! ### Structural invariants of the emitted chunk list -/

theorem spansFrom_mono {lo hi hi' : Nat} {cs : List ConflictChunk}
    (h : spansFrom lo hi cs) (hh : hi ≤ hi') : spansFrom lo hi' cs := by
  induction cs generalizing lo with
  | nil => trivial
  | cons c cs ih =>
    obtain ⟨h1, h2, h3, h4⟩ := h
    exact ⟨h1, h2, by omega, ih h4⟩

theorem lastEnd_append (lo : Nat) (cs : List ConflictChunk) (c : ConflictChunk) :
    lastEnd lo (cs ++ [c]) = c.endLine := by
  induction cs generalizing lo with
  | nil => rfl
  | cons d cs ih => exact ih d.endLine

theorem spansFrom_append {lo hi : Nat} {cs : List ConflictChunk}
    {c : ConflictChunk} (h : spansFrom lo hi cs)
    (h1 : lastEnd lo cs < c.startLine) (h2 : c.startLine ≤ c.endLine)
    (h3 : c.endLine ≤ hi) : spansFrom lo hi (cs ++ [c]) := by
  induction cs generalizing lo with
  | nil => exact ⟨h1, h2, h3, trivial⟩
  | cons d cs ih =>
    obtain ⟨g1, g2, g3, g4⟩ := h
    exact ⟨g1, g2, g3, ih g4 h1⟩

theorem idsFrom_append {k : Nat} {cs : List ConflictChunk} {c : ConflictChunk}
    (h : idsFrom k cs) (hc : c.id = k + cs.length) :
    idsFrom k (cs ++ [c]) := by
  induction cs generalizing k with
  | nil => exact ⟨by simpa using hc, trivial⟩
  | cons d cs ih =>
    obtain ⟨g1, g2⟩ := h
    refine ⟨g1, ih g2 ?_⟩
    simp only [List.length_cons] at hc
    omega

theorem idsFrom_getD {k : Nat} {cs : List ConflictChunk} (h : idsFrom k cs) :
    ∀ i, i < cs.length → (cs.getD i zeroChunk).id = k + i := by
  induction cs generalizing k with
  | nil =>
    intro i hi
    cases hi
  | cons c cs ih =>
    intro i hi
    cases i with
    | zero => simpa using h.1
    | succ j =>
      have := ih h.2 j (by simpa using hi)
      simp only [List.getD_cons_succ]
      omega

theorem spansFrom_getD {lo hi : Nat} {cs : List ConflictChunk}
    (h : spansFrom lo hi cs) :
    ∀ i, i < cs.length →
      lo < (cs.getD i zeroChunk).startLine ∧
      (cs.getD i zeroChunk).startLine ≤ (cs.getD i zeroChunk).endLine ∧
      (cs.getD i zeroChunk).endLine ≤ hi := by
  induction cs generalizing lo with
  | nil =>
    intro i hil
    cases hil
  | cons c cs ih =>
    intro i hil
    cases i with
    | zero =>
      simpa using ⟨h.1, h.2.1, h.2.2.1⟩
    | succ j =>
      have hj := ih h.2.2.2 j (by simpa using hil)
      have h1 := h.1
      have h2 := h.2.1
      simp only [List.getD_cons_succ]
      exact ⟨by omega, hj.2.1, hj.2.2⟩

theorem spansFrom_pairwise {lo hi : Nat} {cs : List ConflictChunk}
    (h : spansFrom lo hi cs) :
    ∀ i j, i < cs.length → j < cs.length → i < j →
      (cs.getD i zeroChunk).endLine < (cs.getD j zeroChunk).startLine := by
  induction cs generalizing lo with
  | nil =>
    intro i j hil
    cases hil
  | cons c cs ih =>
    intro i j hil hjl hij
    cases i with
    | zero =>
      cases j with
      | zero => cases hij
      | succ j' =>
        have := (spansFrom_getD h.2.2.2 j' (by simpa using hjl)).1
        simpa using this
    | succ i' =>
      cases j with
      | zero => cases hij
      | succ j' =>
        simp only [List.getD_cons_succ]
        exact ih h.2.2.2 i' j' (by simpa using hil) (by simpa using hjl)
          (by omega)

theorem Inv_step {st st1 : ScanState} {p : Nat} {l : Str}
    (hI : Inv st p) (h : scanStep st (p + 1) l = .ok st1) : Inv st1 (p + 1) := by
  obtain ⟨hid, hids, hsp, hle, hopen⟩ := hI
  by_cases h1 : isStart l = true
  · by_cases h2 : st.inConflict = true
    · rw [scanStep_nested h1 h2] at h
      cases h
    · replace h2 : st.inConflict = false := by simpa using h2
      rw [scanStep_open_start h1 h2] at h
      cases h
      exact ⟨hid, hids, spansFrom_mono hsp (Nat.le_succ p),
        Nat.le_succ_of_le hle,
        fun _ => ⟨rfl, Nat.lt_succ_of_le hle, Nat.succ_le_succ (Nat.zero_le p),
          Nat.le_refl (p + 1)⟩⟩
  · replace h1 : isStart l = false := by simpa using h1
    by_cases h2 : st.inConflict = true
    · obtain ⟨hcid, hlt, h1le, hsl⟩ := hopen h2
      by_cases h3 : isDivider l = true
      · rw [scanStep_divider h3 h2] at h
        cases h
        exact ⟨hid, hids, spansFrom_mono hsp (Nat.le_succ p),
          Nat.le_succ_of_le hle,
          fun _ => ⟨hcid, hlt, h1le, Nat.le_succ_of_le hsl⟩⟩
      · replace h3 : isDivider l = false := by simpa using h3
        by_cases h4 : isEnd l = true
        · rw [scanStep_end h4 h2] at h
          cases h
          refine ⟨?_, ?_, ?_, ?_, ?_⟩
          · show st.currentID + 1 = (st.chunks ++ [_]).length
            simp [hid]
          · exact idsFrom_append hids (by dsimp only; omega)
          · exact spansFrom_append (spansFrom_mono hsp (Nat.le_succ p)) hlt
              (by dsimp only; omega) (by dsimp only; omega)
          · show lastEnd 0 (st.chunks ++ [_]) ≤ p + 1
            rw [lastEnd_append]
          · intro hcon
            simp at hcon
        · replace h4 : isEnd l = false := by simpa using h4
          have hp : plainLine l = true := by simp [plainLine, h1, h3, h4]
          by_cases h5 : st.cur.baseCode = []
          · rw [scanStep_plain_baseEmpty hp h2 h5] at h
            cases h
            exact ⟨hid, hids, spansFrom_mono hsp (Nat.le_succ p),
              Nat.le_succ_of_le hle,
              fun _ => ⟨hcid, hlt, h1le, Nat.le_succ_of_le hsl⟩⟩
          · rw [scanStep_plain_baseSet hp h2 h5] at h
            cases h
            exact ⟨hid, hids, spansFrom_mono hsp (Nat.le_succ p),
              Nat.le_succ_of_le hle,
              fun _ => ⟨hcid, hlt, h1le, Nat.le_succ_of_le hsl⟩⟩
    · replace h2 : st.inConflict = false := by simpa using h2
      rw [scanStep_closed_skip h1 h2] at h
      cases h
      refine ⟨hid, hids, spansFrom_mono hsp (Nat.le_succ p),
        Nat.le_succ_of_le hle, ?_⟩
      intro hcon
      rw [h2] at hcon
      cases hcon

theorem Inv_processLines {ls : List Str} {p : Nat} {st st' : ScanState}
    (hI : Inv st p) (h : processLines ls (p + 1) st = .ok st') :
    Inv st' (p + ls.length) := by
  induction ls generalizing p st with
  | nil =>
    cases h
    simpa using hI
  | cons l ls ih =>
    simp only [processLines] at h
    cases hs : scanStep st (p + 1) l with
    | error e =>
      rw [hs] at h
      cases h
    | ok st1 =>
      rw [hs] at h
      have h2 := ih (Inv_step hI hs) h
      have harith : p + 1 + ls.length = p + (l :: ls).length := by
        simp [List.length_cons]
        omega
      rwa [harith] at h2

theorem Inv_initState : Inv initState 0 := by
  refine ⟨rfl, trivial, trivial, by simp [lastEnd, initState], ?_⟩
  intro hcon
  cases hcon

theorem scan_invariant {lines : List Str} {cs : List ConflictChunk}
    (h : findConflictChunksLines lines = .ok cs) :
    idsFrom 0 cs ∧ spansFrom 0 lines.length cs := by
  unfold findConflictChunksLines at h
  cases hp : processLines lines 1 initState with
  | error e =>
    rw [hp] at h
    cases h
  | ok st =>
    rw [hp] at h
    by_cases hc : st.inConflict = true
    · simp [hc] at h
    · replace hc : st.inConflict = false := by simpa using hc
      simp [hc] at h
      subst h
      have hI := @Inv_processLines lines 0 initState st Inv_initState
        (by simpa using hp)
      have hsp := hI.2.2.1
      rw [Nat.zero_add] at hsp
      exact ⟨hI.2.1, hsp⟩

/-! ### The probe and scans with no start marker -/

theorem scan_of_no_start {content : Str}
    (h : ∀ l ∈ splitNl content, isStart l = false) :
    FindConflictChunks content = .ok [] := by
  unfold FindConflictChunks findConflictChunksLines
  rw [processLines_closed_inert h rfl]
  rfl

theorem strContains_iff {sub s : Str} : strContains sub s = true ↔ sub <:+: s := by
  induction s with
  | nil =>
    simp [strContains, List.isEmpty_iff]
  | cons c t ih =>
    simp only [strContains, Bool.or_eq_true, ih, List.infix_cons_iff,
      List.isPrefixOf_iff_prefix]

theorem probe_true_of_start_line {content l : Str} (hl : l ∈ splitNl content)
    (hs : isStart l = true) : HasMergeConflicts content = true := by
  have h1 : startMarker <+: l := List.isPrefixOf_iff_prefix.mp hs
  have h2 : l <:+: content := infix_of_mem_splitNl hl
  exact strContains_iff.mpr (h1.isInfix.trans h2)

/-- The spec's own content-fidelity sample: one region with `ours = "foo"`
and `theirs = "bar"` (the trailing newline adds a sixth, empty line after
the region). -/
theorem single_region_sample :
    FindConflictChunks "<<<<<<< A\nfoo\n=======\nbar\n>>>>>>> B\n".toList =
      .ok [⟨0, "foo".toList, "bar".toList, 1, 5⟩] := by decide

/-! ### Scanning a well-formed region -/

theorem Region.lines_length (r : Region) :
    r.lines.length = r.ours.length + r.theirs.length + 3 := by
  simp [Region.lines]
  omega

theorem processRegion {r : Region} {n : Nat} {cur0 : ConflictChunk}
    {cid : Nat} {ch : List ConflictChunk}
    (hv : r.valid) (hne : joinNl r.ours ≠ []) :
    processLines r.lines n ⟨false, cur0, [], [], cid, ch⟩ =
      .ok ⟨false,
        ⟨cid, joinNl r.ours, joinNl r.theirs, n,
          n + r.ours.length + r.theirs.length + 2⟩,
        [], [], cid + 1,
        ch ++ [⟨cid, joinNl r.ours, joinNl r.theirs, n,
          n + r.ours.length + r.theirs.length + 2⟩]⟩ := by
  obtain ⟨hs, hd, he, ho, ht⟩ := hv
  show processLines (r.startL :: (r.ours ++ r.divL :: (r.theirs ++ [r.endL])))
    n _ = _
  simp only [processLines]
  rw [scanStep_open_start hs rfl]
  show processLines (r.ours ++ r.divL :: (r.theirs ++ [r.endL])) (n + 1)
    ⟨true, ⟨cid, [], [], n, 0⟩, [], [], cid, ch⟩ = _
  rw [processLines_append]
  rw [processLines_accum_base ho rfl rfl]
  show processLines (r.divL :: (r.theirs ++ [r.endL])) (n + 1 + r.ours.length)
    ⟨true, ⟨cid, [], [], n, 0⟩, [] ++ r.ours, [], cid, ch⟩ = _
  simp only [processLines]
  rw [scanStep_divider hd rfl]
  show processLines (r.theirs ++ [r.endL]) (n + 1 + r.ours.length + 1)
    ⟨true, ⟨cid, joinNl ([] ++ r.ours), [], n, 0⟩, [], [], cid, ch⟩ = _
  rw [processLines_append]
  rw [processLines_accum_incoming ht rfl (by simpa using hne)]
  show processLines [r.endL] (n + 1 + r.ours.length + 1 + r.theirs.length)
    ⟨true, ⟨cid, joinNl ([] ++ r.ours), [], n, 0⟩, [], [] ++ r.theirs, cid, ch⟩
      = _
  simp only [processLines]
  rw [scanStep_end he rfl]
  have harith : n + 1 + r.ours.length + 1 + r.theirs.length =
      n + r.ours.length + r.theirs.length + 2 := by omega
  rw [harith]
  rfl

theorem processAssembled {rs : List (Region × List Str)} {n : Nat}
    {st : ScanState} (hseg : segsOK rs)
    (hne : ∀ p ∈ rs, joinNl p.1.ours ≠ [])
    (hc : st.inConflict = false) (hb : st.baseLines = [])
    (hi : st.incomingLines = []) :
    ∃ st', processLines (assemble rs) n st = .ok st' ∧
      st'.inConflict = false ∧ st'.baseLines = [] ∧ st'.incomingLines = [] ∧
      st'.chunks = st.chunks ++ expectedChunks n st.currentID rs := by
  induction rs generalizing n st with
  | nil =>
    exact ⟨st, rfl, hc, hb, hi, by simp [expectedChunks]⟩
  | cons p rest ih =>
    obtain ⟨r, seg⟩ := p
    obtain ⟨hv, hsegOK, hrest⟩ := hseg
    obtain ⟨ic, cur0, bl, il, cid, ch⟩ := st
    simp only at hc hb hi
    subst hc
    subst hb
    subst hi
    have hr := @processRegion r n cur0 cid ch hv (hne (r, seg) (by simp))
    have estep : processLines (assemble ((r, seg) :: rest)) n
        ⟨false, cur0, [], [], cid, ch⟩ =
        processLines (assemble rest) (n + r.lines.length + seg.length)
          ⟨false, ⟨cid, joinNl r.ours, joinNl r.theirs, n,
            n + r.ours.length + r.theirs.length + 2⟩, [], [], cid + 1,
            ch ++ [⟨cid, joinNl r.ours, joinNl r.theirs, n,
              n + r.ours.length + r.theirs.length + 2⟩]⟩ := by
      show processLines (r.lines ++ (seg ++ assemble rest)) n _ = _
      rw [processLines_append, hr]
      show processLines (seg ++ assemble rest) (n + r.lines.length) _ = _
      rw [processLines_append, processLines_closed_inert hsegOK rfl]
    obtain ⟨st', hrun, h1, h2, h3, h4⟩ := @ih (n + r.lines.length + seg.length)
      ⟨false, ⟨cid, joinNl r.ours, joinNl r.theirs, n,
        n + r.ours.length + r.theirs.length + 2⟩, [], [], cid + 1,
        ch ++ [⟨cid, joinNl r.ours, joinNl r.theirs, n,
          n + r.ours.length + r.theirs.length + 2⟩]⟩
      hrest (fun q hq => hne q (by simp [hq])) rfl rfl rfl
    refine ⟨st', by rw [estep]; exact hrun, h1, h2, h3, ?_⟩
    rw [h4]
    show _ = ch ++ expectedChunks n cid ((r, seg) :: rest)
    simp only [expectedChunks]
    have harith : n + r.lines.length + seg.length =
        n + r.ours.length + r.theirs.length + 3 + seg.length := by
      rw [Region.lines_length]
      omega
    rw [harith]
    simp

/-! ### Evaluating a successful replacement -/

theorem scan_ok_inv {content : Str} {cs : List ConflictChunk}
    (h : FindConflictChunks content = .ok cs) :
    ∃ stf, processLines (splitNl content) 1 initState = .ok stf ∧
      stf.inConflict = false ∧ stf.chunks = cs := by
  unfold FindConflictChunks findConflictChunksLines at h
  cases hp : processLines (splitNl content) 1 initState with
  | error e =>
    rw [hp] at h
    cases h
  | ok st =>
    rw [hp] at h
    by_cases hc : st.inConflict = true
    · simp [hc] at h
    · replace hc : st.inConflict = false := by simpa using hc
      simp [hc] at h
      exact ⟨st, rfl, hc, h⟩

theorem ReplaceConflictChunk_ok {content newContent : Str}
    {cs : List ConflictChunk} {k : Nat}
    (h : FindConflictChunks content = .ok cs) (hk : k < cs.length) :
    ReplaceConflictChunk content (k : Int) newContent =
      .ok (joinNl ((splitNl content).take
          ((cs.getD k zeroChunk).startLine - 1) ++ splitNl newContent ++
        (splitNl content).drop (cs.getD k zeroChunk).endLine)) := by
  unfold ReplaceConflictChunk
  rw [h]
  have hcond : ¬(((k : Int) < 0) ∨ ((cs.length : Int) ≤ (k : Int))) := by
    push_neg
    constructor
    · exact Int.ofNat_nonneg k
    · exact_mod_cast hk
  show (if ((k : Int) < 0) ∨ ((cs.length : Int) ≤ (k : Int)) then _ else _) = _
  rw [if_neg hcond]
  rfl

theorem replace_splitNl {content newContent out : Str}
    {cs : List ConflictChunk} {k : Nat}
    (h : FindConflictChunks content = .ok cs) (hk : k < cs.length)
    (hr : ReplaceConflictChunk content (k : Int) newContent = .ok out) :
    splitNl out =
      (splitNl content).take ((cs.getD k zeroChunk).startLine - 1) ++
      splitNl newContent ++
      (splitNl content).drop (cs.getD k zeroChunk).endLine := by
  rw [ReplaceConflictChunk_ok h hk] at hr
  have hout : out = joinNl ((splitNl content).take
      ((cs.getD k zeroChunk).startLine - 1) ++ splitNl newContent ++
      (splitNl content).drop (cs.getD k zeroChunk).endLine) :=
    (Except.ok.inj hr).symm
  rw [hout]
  apply splitNl_joinNl
  · intro hnil
    have : splitNl newContent = [] := by
      rcases List.append_eq_nil.mp (List.append_eq_nil.mp hnil).1 with ⟨-, h2⟩
      exact h2
    exact splitNl_ne_nil newContent this
  · intro xs hxs
    rcases List.mem_append.mp hxs with hxs | hxs
    · rcases List.mem_append.mp hxs with hxs | hxs
      · exact no_newline_of_mem_splitNl (List.mem_of_mem_take hxs)
      · exact no_newline_of_mem_splitNl hxs
    · exact no_newline_of_mem_splitNl (List.mem_of_mem_drop hxs)

/-! ### Claim C2: frame property of replacement -/

/-- C2: when `content` scans to `n` chunks, `0 ≤ k < n`, and
`ReplaceConflictChunk` succeeds, the resulting content's lines are exactly:
the lines strictly before the chunk's `start_line` unchanged, then the lines
of `newContent` (split on `"\n"`), then the lines strictly after the chunk's
`end_line` unchanged — the whole `[start_line, end_line]` span, markers
included, replaced by `newContent`'s lines. -/
theorem replace_frame_property {content newContent out : Str}
    {cs : List ConflictChunk} {k : Nat}
    (h : FindConflictChunks content = .ok cs) (hk : k < cs.length)
    (hr : ReplaceConflictChunk content (k : Int) newContent = .ok out) :
    splitNl out =
      (splitNl content).take ((cs.getD k zeroChunk).startLine - 1) ++
      splitNl newContent ++
      (splitNl content).drop (cs.getD k zeroChunk).endLine :=
  replace_splitNl h hk hr

/-- Witness for C2: splicing `"X\nY"` over the single chunk of a five-line
region embedded between `"a"` and `"z"`. -/
theorem replace_frame_property_witness :
    splitNl "a\nX\nY\nz".toList =
      (splitNl "a\n<<<<<<< A\nfoo\n=======\nbar\n>>>>>>> B\nz".toList).take
        ((([⟨0, "foo".toList, "bar".toList, 2, 6⟩] :
          List ConflictChunk).getD 0 zeroChunk).startLine - 1) ++
      splitNl "X\nY".toList ++
      (splitNl "a\n<<<<<<< A\nfoo\n=======\nbar\n>>>>>>> B\nz".toList).drop
        (([⟨0, "foo".toList, "bar".toList, 2, 6⟩] :
          List ConflictChunk).getD 0 zeroChunk).endLine :=
  @replace_frame_property "a\n<<<<<<< A\nfoo\n=======\nbar\n>>>>>>> B\nz".toList
    "X\nY".toList "a\nX\nY\nz".toList
    [⟨0, "foo".toList, "bar".toList, 2, 6⟩] 0
    (by decide) (by decide) (by decide)

/-! ### The scanner state after the lines before a chunk -/

theorem getD_mem_of_lt {l : List ConflictChunk} {i : Nat} {d : ConflictChunk}
    (h : i < l.length) : l.getD i d ∈ l := by
  rw [List.getD_eq_getElem l d h]
  exact List.getElem_mem h

theorem getD_append_self (l1 : List ConflictChunk) (c : ConflictChunk)
    (t : List ConflictChunk) (d : ConflictChunk) :
    (l1 ++ c :: t).getD l1.length d = c := by
  induction l1 with
  | nil => rfl
  | cons a l1 ih => simpa using ih

theorem scan_prefix_state {content : Str} {cs : List ConflictChunk} {k : Nat}
    (h : FindConflictChunks content = .ok cs) (hk : k < cs.length) :
    ∃ stm, processLines ((splitNl content).take
        ((cs.getD k zeroChunk).startLine - 1)) 1 initState = .ok stm ∧
      stm.chunks = cs.take k := by
  obtain ⟨hids, hsp⟩ := scan_invariant h
  obtain ⟨stf, hrun, hic, hch⟩ := scan_ok_inv h
  have hspk := spansFrom_getD hsp k hk
  have hlen : (cs.getD k zeroChunk).startLine - 1 ≤ (splitNl content).length := by
    omega
  have htklen : ((splitNl content).take
      ((cs.getD k zeroChunk).startLine - 1)).length =
      (cs.getD k zeroChunk).startLine - 1 := by
    rw [List.length_take]
    omega
  cases hpre : processLines ((splitNl content).take
      ((cs.getD k zeroChunk).startLine - 1)) 1 initState with
  | error e =>
    have hcontra : processLines (splitNl content) 1 initState = .error e := by
      conv_lhs => rw [← List.take_append_drop
        ((cs.getD k zeroChunk).startLine - 1) (splitNl content)]
      rw [processLines_append, hpre]
    rw [hrun] at hcontra
    cases hcontra
  | ok stm =>
    have heq : processLines (splitNl content) 1 initState =
        processLines ((splitNl content).drop
            ((cs.getD k zeroChunk).startLine - 1))
          (1 + ((splitNl content).take
            ((cs.getD k zeroChunk).startLine - 1)).length) stm := by
      conv_lhs => rw [← List.take_append_drop
        ((cs.getD k zeroChunk).startLine - 1) (splitNl content)]
      rw [processLines_append, hpre]
    rw [heq] at hrun
    obtain ⟨t1, ht1, hb1⟩ := processLines_chunks hpre
    obtain ⟨t2, ht2, hb2⟩ := processLines_chunks hrun
    have hcs : cs = stm.chunks ++ t2 := by rw [← hch, ht2]
    have hbound1 : ∀ c ∈ stm.chunks,
        c.endLine ≤ (cs.getD k zeroChunk).startLine - 1 := by
      intro c hc
      rw [ht1] at hc
      simp [initState] at hc
      have := hb1 c hc
      rw [htklen] at this
      omega
    have hbound2 : ∀ c ∈ t2,
        (cs.getD k zeroChunk).startLine ≤ c.endLine := by
      intro c hc
      have h0 := hspk.1
      have := hb2 c hc
      rw [htklen] at this
      omega
    have hm : stm.chunks.length = k := by
      by_contra hne
      rcases Nat.lt_or_ge stm.chunks.length k with hlt | hge
      · cases ht2' : t2 with
        | nil =>
          rw [ht2', List.append_nil] at hcs
          have : cs.length = stm.chunks.length := by rw [hcs]
          omega
        | cons c2 t2' =>
          have hcm : cs.getD stm.chunks.length zeroChunk = c2 := by
            rw [hcs, ht2']
            exact getD_append_self _ _ _ _
          have hmem : c2 ∈ t2 := by
            rw [ht2']
            simp
          have h1 := hbound2 c2 hmem
          have hmlt : stm.chunks.length < cs.length := by
            rw [hcs, ht2']
            simp
          have h2 := spansFrom_pairwise hsp stm.chunks.length k hmlt hk hlt
          rw [hcm] at h2
          omega
      · have hlt : k < stm.chunks.length := by omega
        have hck : cs.getD k zeroChunk = stm.chunks.getD k zeroChunk := by
          rw [hcs]
          exact List.getD_append _ _ _ _ hlt
        have hmem : stm.chunks.getD k zeroChunk ∈ stm.chunks :=
          getD_mem_of_lt hlt
        have h1 := hbound1 _ hmem
        rw [← hck] at h1
        have h2 := hspk.2.1
        have h3 := hspk.1
        omega
    refine ⟨stm, rfl, ?_⟩
    rw [hcs, ← hm, List.take_left]

/-! ### Claim C4: locality of replacement (descending-order invariant) -/

/-- C4: when `content` scans to `n` chunks, `0 ≤ k < n`, and
`ReplaceConflictChunk content k newContent` succeeds, then whenever the
resulting content again scans successfully, its chunks with id `< k` are
identical — same id, same `BaseCode`, same `IncomingCode`, same
`start_line` and `end_line` — to the original content's chunks with
id `< k`; only chunks after the mutated span can move. -/
theorem replace_locality {content newContent out : Str}
    {cs cs' : List ConflictChunk} {k : Nat}
    (h : FindConflictChunks content = .ok cs) (hk : k < cs.length)
    (hr : ReplaceConflictChunk content (k : Int) newContent = .ok out)
    (h' : FindConflictChunks out = .ok cs') :
    cs'.take k = cs.take k := by
  obtain ⟨stm, hpre, hchm⟩ := scan_prefix_state h hk
  obtain ⟨stf', hrun', hic', hch'⟩ := scan_ok_inv h'
  have hout := replace_splitNl h hk hr
  have hout' : splitNl out =
      (splitNl content).take ((cs.getD k zeroChunk).startLine - 1) ++
      (splitNl newContent ++
        (splitNl content).drop (cs.getD k zeroChunk).endLine) := by
    rw [hout, List.append_assoc]
  have heq : processLines (splitNl out) 1 initState =
      processLines (splitNl newContent ++
          (splitNl content).drop (cs.getD k zeroChunk).endLine)
        (1 + ((splitNl content).take
          ((cs.getD k zeroChunk).startLine - 1)).length) stm := by
    rw [hout', processLines_append, hpre]
  rw [heq] at hrun'
  obtain ⟨t', ht', -⟩ := processLines_chunks hrun'
  have hcs' : cs' = cs.take k ++ t' := by rw [← hch', ht', hchm]
  have hlen : (cs.take k).length = k := by
    rw [List.length_take]
    omega
  rw [hcs']
  exact List.take_left' hlen

/-- Witness for C4: replacing chunk 1 of a two-chunk file with a one-line
text leaves chunk 0 untouched in the re-scan. -/
theorem replace_locality_witness :
    ([⟨0, "foo".toList, "bar".toList, 1, 5⟩] : List ConflictChunk).take 1 =
      ([⟨0, "foo".toList, "bar".toList, 1, 5⟩,
        ⟨1, "baz".toList, "qux".toList, 7, 11⟩] :
          List ConflictChunk).take 1 :=
  @replace_locality
    "<<<<<<< A\nfoo\n=======\nbar\n>>>>>>> B\nmid\n<<<<<<< C\nbaz\n=======\nqux\n>>>>>>> D".toList
    "X".toList
    "<<<<<<< A\nfoo\n=======\nbar\n>>>>>>> B\nmid\nX".toList
    [⟨0, "foo".toList, "bar".toList, 1, 5⟩,
     ⟨1, "baz".toList, "qux".toList, 7, 11⟩]
    [⟨0, "foo".toList, "bar".toList, 1, 5⟩]
    1 (by decide) (by decide) (by decide) (by decide)

/-! ### Claim C1: content fidelity of scanning (corrected) -/

/-- Counterexample to C1 as stated: in the well-formed region
`"<<<<<<< A\n=======\nbar\n>>>>>>> B"` the ours side has zero lines, so C1
asserts `theirs = "bar"`; the code returns a chunk whose `IncomingCode` is
empty instead — `"bar"` lands in the discarded ours accumulator, because
after the divider the side is chosen by testing `BaseCode == ""`. -/
theorem scan_content_fidelity_cex :
    FindConflictChunks "<<<<<<< A\n=======\nbar\n>>>>>>> B".toList =
      .ok [⟨0, [], [], 1, 4⟩] ∧
    ([] : Str) ≠ joinNl ["bar".toList] :=
  ⟨by decide, by decide⟩

/-- C1 (amended): for every input whose conflict regions are well-formed
(one start marker, one divider, one end marker, non-nested, with no
start-marker line between regions) and in which every region's ours lines
join to a non-empty string, each chunk's `BaseCode` is the join with `"\n"`
of exactly the lines strictly between the start marker and the divider, and
its `IncomingCode` the join of exactly the lines strictly between the
divider and the end marker; marker lines appear on neither side.  (The
original claim also covered regions whose ours side joins to the empty
string — the counterexample shows those lose their theirs content.) -/
theorem scan_content_fidelity {content : Str} {s0 : List Str}
    {rs : List (Region × List Str)}
    (hsplit : splitNl content = s0 ++ assemble rs)
    (hs0 : ∀ l ∈ s0, isStart l = false)
    (hseg : segsOK rs)
    (hne : ∀ p ∈ rs, joinNl p.1.ours ≠ []) :
    FindConflictChunks content = .ok (expectedChunks (s0.length + 1) 0 rs) := by
  unfold FindConflictChunks findConflictChunksLines
  rw [hsplit, processLines_append, processLines_closed_inert hs0 rfl]
  obtain ⟨st', hrun, hic, -, -, hch⟩ :=
    @processAssembled rs (1 + s0.length) initState hseg hne rfl rfl rfl
  show (match processLines (assemble rs) (1 + s0.length) initState with
    | Except.error e => Except.error e
    | Except.ok st => if st.inConflict = true then Except.error ScanError.unclosed
        else Except.ok st.chunks) = _
  rw [hrun]
  show (if st'.inConflict = true then Except.error ScanError.unclosed
    else Except.ok st'.chunks) = _
  rw [hic, if_neg (by simp), hch]
  show Except.ok (expectedChunks (1 + s0.length) 0 rs) = _
  rw [Nat.add_comm 1 s0.length]

/-- Witness for C1 (amended) on a two-region input with surrounding text. -/
theorem scan_content_fidelity_witness :
    FindConflictChunks
        "pre\n<<<<<<< A\nfoo\n=======\nbar\n>>>>>>> B\nmid\n<<<<<<< C\nbaz\n=======\nqux\n>>>>>>> D\npost".toList =
      .ok [⟨0, "foo".toList, "bar".toList, 2, 6⟩,
           ⟨1, "baz".toList, "qux".toList, 8, 12⟩] :=
  (@scan_content_fidelity
    "pre\n<<<<<<< A\nfoo\n=======\nbar\n>>>>>>> B\nmid\n<<<<<<< C\nbaz\n=======\nqux\n>>>>>>> D\npost".toList
    ["pre".toList]
    [(⟨"<<<<<<< A".toList, ["foo".toList], "=======".toList, ["bar".toList],
        ">>>>>>> B".toList⟩, ["mid".toList]),
     (⟨"<<<<<<< C".toList, ["baz".toList], "=======".toList, ["qux".toList],
        ">>>>>>> D".toList⟩, ["post".toList])]
    (by decide) (by decide)
    (by simp only [segsOK, Region.valid]
        decide)
    (by decide)).trans (by decide)

/-! ### Claim C8: a zero-line ours side empties both sides -/

/-- C8: for every conflict region in which the divider immediately follows
the start marker (zero-line ours side), `FindConflictChunks` succeeds and
the returned chunk has both `BaseCode` and `IncomingCode` equal to the
empty string; the non-marker lines between the divider and the end marker
are captured on neither side. -/
theorem empty_ours_chunk {content : Str} {sl dl el : Str} {mids : List Str}
    (hsplit : splitNl content = sl :: dl :: (mids ++ [el]))
    (hs : isStart sl = true) (hd : isDivider dl = true) (he : isEnd el = true)
    (hm : ∀ l ∈ mids, plainLine l = true) :
    FindConflictChunks content = .ok [⟨0, [], [], 1, 3 + mids.length⟩] := by
  unfold FindConflictChunks findConflictChunksLines
  rw [hsplit]
  simp only [processLines]
  rw [scanStep_open_start hs rfl]
  show (match processLines (dl :: (mids ++ [el])) 2
      ⟨true, ⟨0, [], [], 1, 0⟩, [], [], 0, []⟩ with
    | Except.error e => Except.error e
    | Except.ok st => if st.inConflict = true then Except.error ScanError.unclosed
        else Except.ok st.chunks) = _
  simp only [processLines]
  rw [scanStep_divider hd rfl]
  show (match processLines (mids ++ [el]) 3
      ⟨true, ⟨0, joinNl [], [], 1, 0⟩, [], [], 0, []⟩ with
    | Except.error e => Except.error e
    | Except.ok st => if st.inConflict = true then Except.error ScanError.unclosed
        else Except.ok st.chunks) = _
  rw [processLines_append, processLines_accum_base hm rfl rfl]
  show (match processLines [el] (3 + mids.length)
      ⟨true, ⟨0, joinNl [], [], 1, 0⟩, [] ++ mids, [], 0, []⟩ with
    | Except.error e => Except.error e
    | Except.ok st => if st.inConflict = true then Except.error ScanError.unclosed
        else Except.ok st.chunks) = _
  simp only [processLines]
  rw [scanStep_end he rfl]
  rfl

/-- Witness for C8: the region `"<<<<<<< A\n=======\nbar\n>>>>>>> B"` scans
to one chunk with both sides empty; `"bar"` appears on neither side. -/
theorem empty_ours_chunk_witness :
    FindConflictChunks "<<<<<<< A\n=======\nbar\n>>>>>>> B".toList =
      .ok [⟨0, [], [], 1, 4⟩] :=
  (@empty_ours_chunk "<<<<<<< A\n=======\nbar\n>>>>>>> B".toList
    "<<<<<<< A".toList "=======".toList ">>>>>>> B".toList ["bar".toList]
    (by decide) (by decide) (by decide) (by decide) (by decide)).trans
    (by decide)

/-! ### Claim C9: a repeated divider resets the ours side (corrected) -/

/-- Counterexample to C9 as stated: in
`"<<<<<<< A\n\n=======\nbar\n=======\n>>>>>>> B"` the ours side is one empty
line (a non-marker line), so C9 asserts `BaseCode = ""` and
`IncomingCode = "bar"`; the code returns `BaseCode = "bar"` and
`IncomingCode = ""` instead, because the one-empty-line ours side joins to
`""` and the side-selection test `BaseCode == ""` then routes `"bar"` into
the ours accumulator, which the second divider freezes into `BaseCode`. -/
theorem duplicate_divider_cex :
    FindConflictChunks
        "<<<<<<< A\n\n=======\nbar\n=======\n>>>>>>> B".toList =
      .ok [⟨0, "bar".toList, [], 1, 6⟩] ∧
    "bar".toList ≠ ([] : Str) :=
  ⟨by decide, by decide⟩

/-- C9 (amended): for every conflict region of the form start marker, ours
lines joining to a non-empty string, divider, theirs lines, a second
divider line, end marker, `FindConflictChunks` succeeds (the repeated
divider is not a parse error), the chunk's `BaseCode` is the empty string
(the second divider overwrites the frozen ours text with the join of the
empty accumulator), and `IncomingCode` is the join of the lines between the
two dividers.  (The original claim allowed ours lines joining to the empty
string — the counterexample shows the sides then come out swapped.) -/
theorem duplicate_divider {content : Str} {sl dl dl2 el : Str}
    {ours theirs : List Str}
    (hsplit : splitNl content =
      sl :: (ours ++ dl :: (theirs ++ dl2 :: [el])))
    (hs : isStart sl = true) (hd : isDivider dl = true)
    (hd2 : isDivider dl2 = true) (he : isEnd el = true)
    (ho : ∀ l ∈ ours, plainLine l = true)
    (ht : ∀ l ∈ theirs, plainLine l = true)
    (hone : ours ≠ []) (htone : theirs ≠ [])
    (hne : joinNl ours ≠ []) :
    FindConflictChunks content =
      .ok [⟨0, [], joinNl theirs, 1,
        1 + ours.length + 1 + theirs.length + 1 + 1⟩] := by
  unfold FindConflictChunks findConflictChunksLines
  rw [hsplit]
  simp only [processLines]
  rw [scanStep_open_start hs rfl]
  show (match processLines (ours ++ dl :: (theirs ++ dl2 :: [el])) 2
      ⟨true, ⟨0, [], [], 1, 0⟩, [], [], 0, []⟩ with
    | Except.error e => Except.error e
    | Except.ok st => if st.inConflict = true then Except.error ScanError.unclosed
        else Except.ok st.chunks) = _
  rw [processLines_append, processLines_accum_base ho rfl rfl]
  show (match processLines (dl :: (theirs ++ dl2 :: [el])) (2 + ours.length)
      ⟨true, ⟨0, [], [], 1, 0⟩, [] ++ ours, [], 0, []⟩ with
    | Except.error e => Except.error e
    | Except.ok st => if st.inConflict = true then Except.error ScanError.unclosed
        else Except.ok st.chunks) = _
  simp only [processLines]
  rw [scanStep_divider hd rfl]
  show (match processLines (theirs ++ dl2 :: [el]) (2 + ours.length + 1)
      ⟨true, ⟨0, joinNl ([] ++ ours), [], 1, 0⟩, [], [], 0, []⟩ with
    | Except.error e => Except.error e
    | Except.ok st => if st.inConflict = true then Except.error ScanError.unclosed
        else Except.ok st.chunks) = _
  rw [processLines_append,
    processLines_accum_incoming ht rfl (by simpa using hne)]
  show (match processLines (dl2 :: [el]) (2 + ours.length + 1 + theirs.length)
      ⟨true, ⟨0, joinNl ([] ++ ours), [], 1, 0⟩, [], [] ++ theirs, 0, []⟩ with
    | Except.error e => Except.error e
    | Except.ok st => if st.inConflict = true then Except.error ScanError.unclosed
        else Except.ok st.chunks) = _
  simp only [processLines]
  rw [scanStep_divider hd2 rfl]
  show (match processLines [el] (2 + ours.length + 1 + theirs.length + 1)
      ⟨true, ⟨0, joinNl [], [], 1, 0⟩, [], [] ++ theirs, 0, []⟩ with
    | Except.error e => Except.error e
    | Except.ok st => if st.inConflict = true then Except.error ScanError.unclosed
        else Except.ok st.chunks) = _
  simp only [processLines]
  rw [scanStep_end he rfl]
  have harith : 2 + ours.length + 1 + theirs.length + 1 =
      1 + ours.length + 1 + theirs.length + 1 + 1 := by omega
  rw [harith]
  rfl

/-- Witness for C9 (amended) with one-line non-empty ours and theirs. -/
theorem duplicate_divider_witness :
    FindConflictChunks
        "<<<<<<< A\nfoo\n=======\nbar\n=======\n>>>>>>> B".toList =
      .ok [⟨0, [], "bar".toList, 1, 6⟩] :=
  (@duplicate_divider
    "<<<<<<< A\nfoo\n=======\nbar\n=======\n>>>>>>> B".toList
    "<<<<<<< A".toList "=======".toList "=======".toList ">>>>>>> B".toList
    ["foo".toList] ["bar".toList]
    (by decide) (by decide) (by decide) (by decide) (by decide) (by decide)
    (by decide) (by decide) (by decide) (by decide)).trans (by decide)

/-! ### Malformed inputs: error analysis -/

theorem unguardedStart_here {a : Str} {ls : List Str}
    (ha : isStart a = true) : unguardedStart (a :: ls) :=
  ⟨[], a, ls, rfl, ha, by simp⟩

theorem unguardedStart_cons {a : Str} {ls : List Str}
    (ha : isEnd a = false) (h : unguardedStart ls) :
    unguardedStart (a :: ls) := by
  obtain ⟨pre, l, post, heq, hl, hpre⟩ := h
  refine ⟨a :: pre, l, post, by rw [heq, List.cons_append], hl, ?_⟩
  intro m hm
  rcases List.mem_cons.mp hm with hm | hm
  · rw [hm]
    exact ha
  · exact hpre m hm

theorem nestedInput_here {a : Str} {ls : List Str}
    (ha : isStart a = true) (h : unguardedStart ls) :
    nestedInput (a :: ls) :=
  ⟨[], a, ls, rfl, ha, h⟩

theorem nestedInput_cons (a : Str) {ls : List Str} (h : nestedInput ls) :
    nestedInput (a :: ls) := by
  obtain ⟨pre, l, rest, heq, hl, hug⟩ := h
  exact ⟨a :: pre, l, rest, by rw [heq, List.cons_append], hl, hug⟩

theorem processError_parts {ls : List Str} {n : Nat} {st : ScanState}
    {e : ScanError} (h : processLines ls n st = .error e) :
    e = .nested ∧
    (st.inConflict = true → unguardedStart ls ∨ nestedInput ls) ∧
    (st.inConflict = false → nestedInput ls) := by
  induction ls generalizing n st with
  | nil => cases h
  | cons l ls ih =>
    simp only [processLines] at h
    cases hs : scanStep st n l with
    | error e1 =>
      rw [hs] at h
      injection h with h
      subst h
      obtain ⟨he1, hl, hst⟩ := scanStep_error_inv hs
      refine ⟨he1, fun _ => Or.inl (unguardedStart_here hl), ?_⟩
      intro hc
      rw [hst] at hc
      cases hc
    | ok st1 =>
      rw [hs] at h
      obtain ⟨he, hopen, hclosed⟩ := ih h
      refine ⟨he, ?_, ?_⟩
      · intro hst
        by_cases h1 : isStart l = true
        · rw [scanStep_nested h1 hst] at hs
          cases hs
        · replace h1 : isStart l = false := by simpa using h1
          by_cases h3 : isEnd l = true
          · rw [scanStep_end h3 hst] at hs
            cases hs
            exact Or.inr (nestedInput_cons l (hclosed rfl))
          · replace h3 : isEnd l = false := by simpa using h3
            have hst1 : st1.inConflict = true :=
              scanStep_open_keep hst h3 hs
            rcases hopen hst1 with hug | hni
            · exact Or.inl (unguardedStart_cons h3 hug)
            · exact Or.inr (nestedInput_cons l hni)
      · intro hst
        by_cases h1 : isStart l = true
        · rw [scanStep_open_start h1 hst] at hs
          cases hs
          rcases hopen rfl with hug | hni
          · exact nestedInput_here h1 hug
          · exact nestedInput_cons l hni
        · replace h1 : isStart l = false := by simpa using h1
          rw [scanStep_closed_skip h1 hst] at hs
          cases hs
          exact nestedInput_cons l (hclosed hst)

theorem processUnguarded_open {pre : List Str} {l : Str} {post : List Str}
    {n : Nat} {st : ScanState}
    (hst : st.inConflict = true) (hl : isStart l = true)
    (hpre : ∀ m ∈ pre, isEnd m = false) :
    processLines (pre ++ l :: post) n st = .error .nested := by
  induction pre generalizing n st with
  | nil =>
    simp only [List.nil_append, processLines]
    rw [scanStep_nested hl hst]
  | cons a pre ih =>
    simp only [List.cons_append, processLines]
    by_cases h1 : isStart a = true
    · rw [scanStep_nested h1 hst]
    · replace h1 : isStart a = false := by simpa using h1
      have ha : isEnd a = false := hpre a (by simp)
      cases hs : scanStep st n a with
      | error e =>
        obtain ⟨-, hcontra, -⟩ := scanStep_error_inv hs
        rw [hcontra] at h1
        cases h1
      | ok st1 =>
        show processLines (pre ++ l :: post) (n + 1) st1 = _
        exact ih (scanStep_open_keep hst ha hs)
          (fun m hm => hpre m (by simp [hm]))

theorem processNested_any {ls : List Str} {n : Nat} {st : ScanState}
    (h : nestedInput ls) : processLines ls n st = .error .nested := by
  obtain ⟨pre, l, rest, heq, hl, hug⟩ := h
  obtain ⟨p2, l2, post2, heq2, hl2, hp2⟩ := hug
  subst heq2
  subst heq
  rw [processLines_append]
  cases hs : processLines pre n st with
  | error e =>
    show Except.error e = _
    rw [processLines_error_nested hs]
  | ok sta =>
    show processLines (l :: (p2 ++ l2 :: post2)) (n + pre.length) sta = _
    simp only [processLines]
    by_cases hca : sta.inConflict = true
    · rw [scanStep_nested hl hca]
    · replace hca : sta.inConflict = false := by simpa using hca
      rw [scanStep_open_start hl hca]
      show processLines (p2 ++ l2 :: post2) (n + pre.length + 1) _ = _
      exact processUnguarded_open rfl hl2 hp2

theorem processUnclosed_lines {ls : List Str}
    (h1 : unclosedInput ls) (h2 : ¬ nestedInput ls) :
    findConflictChunksLines ls = .error .unclosed := by
  obtain ⟨pre, l, post, heq, hl, hpost⟩ := h1
  subst heq
  cases hpre : processLines pre 1 initState with
  | error e =>
    have hwhole : processLines (pre ++ l :: post) 1 initState = .error e := by
      rw [processLines_append, hpre]
    exact absurd ((processError_parts hwhole).2.2 rfl) h2
  | ok sta =>
    cases hsl : scanStep sta (1 + pre.length) l with
    | error e2 =>
      have hwhole : processLines (pre ++ l :: post) 1 initState =
          .error e2 := by
        rw [processLines_append, hpre]
        show processLines (l :: post) (1 + pre.length) sta = _
        simp only [processLines]
        rw [hsl]
      exact absurd ((processError_parts hwhole).2.2 rfl) h2
    | ok stb =>
      have hb : stb.inConflict = true := by
        by_cases hca : sta.inConflict = true
        · rw [scanStep_nested hl hca] at hsl
          cases hsl
        · replace hca : sta.inConflict = false := by simpa using hca
          rw [scanStep_open_start hl hca] at hsl
          cases hsl
          rfl
      cases hpost' : processLines post (1 + pre.length + 1) stb with
      | error e3 =>
        have hwhole : processLines (pre ++ l :: post) 1 initState =
            .error e3 := by
          rw [processLines_append, hpre]
          show processLines (l :: post) (1 + pre.length) sta = _
          simp only [processLines]
          rw [hsl]
          show processLines post (1 + pre.length + 1) stb = _
          exact hpost'
        exact absurd ((processError_parts hwhole).2.2 rfl) h2
      | ok stf =>
        have hopen := processLines_open_keep hpost hb hpost'
        have hwhole : processLines (pre ++ l :: post) 1 initState =
            .ok stf := by
          rw [processLines_append, hpre]
          show processLines (l :: post) (1 + pre.length) sta = _
          simp only [processLines]
          rw [hsl]
          show processLines post (1 + pre.length + 1) stb = _
          exact hpost'
        unfold findConflictChunksLines
        rw [hwhole]
        show (if stf.inConflict = true then Except.error ScanError.unclosed
          else Except.ok stf.chunks) = _
        rw [if_pos hopen]

/-! ### Claim C6: malformed inputs are rejected (corrected) -/

/-- Counterexample to C6 as stated: `"<<<<<<< A\n<<<<<<< B"` contains a
start-marker line with no closing line before end of input, so the claim's
first clause demands the unterminated/unclosed error — but the scan fails
with the nested error instead (the clauses overlap and the nested check
fires first). -/
theorem malformed_rejection_cex :
    unclosedInput (splitNl "<<<<<<< A\n<<<<<<< B".toList) ∧
    FindConflictChunks "<<<<<<< A\n<<<<<<< B".toList = .error .nested ∧
    ScanError.nested ≠ ScanError.unclosed :=
  ⟨⟨[], "<<<<<<< A".toList, ["<<<<<<< B".toList], by decide, by decide,
    by decide⟩, by decide, by decide⟩

/-- C6 (amended): an input with a second start marker inside a still-open
region fails with the nested error; an input containing a start-marker line
never followed by an end-marker line fails with the unclosed error
*provided no nested start marker occurs* (on inputs satisfying both
conditions the nested error takes precedence); in either case no chunks are
returned and, through `ReplaceConflictChunk`, the scan error propagates
before any write, leaving the file unmodified. -/
theorem malformed_rejection {content : Str} :
    (nestedInput (splitNl content) →
      FindConflictChunks content = .error .nested) ∧
    (unclosedInput (splitNl content) → ¬ nestedInput (splitNl content) →
      FindConflictChunks content = .error .unclosed) ∧
    (unclosedInput (splitNl content) ∨ nestedInput (splitNl content) →
      ∀ chunkID newContent, ∃ e, runReplace content chunkID newContent =
        (content, some (.scanFailed e))) := by
  have part1 : nestedInput (splitNl content) →
      FindConflictChunks content = .error .nested := by
    intro hn
    unfold FindConflictChunks findConflictChunksLines
    rw [processNested_any hn]
  have part2 : unclosedInput (splitNl content) →
      ¬ nestedInput (splitNl content) →
      FindConflictChunks content = .error .unclosed :=
    fun hu hn => processUnclosed_lines hu hn
  refine ⟨part1, part2, ?_⟩
  intro hcase chunkID newContent
  have hscan : ∃ e0, FindConflictChunks content = .error e0 := by
    by_cases hn : nestedInput (splitNl content)
    · exact ⟨.nested, part1 hn⟩
    · rcases hcase with hunc | hnest
      · exact ⟨.unclosed, part2 hunc hn⟩
      · exact absurd hnest hn
  obtain ⟨e0, he0⟩ := hscan
  refine ⟨e0, ?_⟩
  unfold runReplace ReplaceConflictChunk
  rw [he0]

/-- Witness for C6 (amended): an unterminated input gives the unclosed
error, a nested input gives the nested error, and the replacement wrapper
leaves the unterminated file unmodified. -/
theorem malformed_rejection_witness :
    FindConflictChunks "<<<<<<< A\nfoo".toList = .error .unclosed ∧
    FindConflictChunks "<<<<<<< A\n<<<<<<< B\n>>>>>>> C".toList =
      .error .nested ∧
    (∃ e, runReplace "<<<<<<< A\nfoo".toList 0 "X".toList =
      ("<<<<<<< A\nfoo".toList, some (.scanFailed e))) := by
  have hunc : unclosedInput (splitNl "<<<<<<< A\nfoo".toList) :=
    ⟨[], "<<<<<<< A".toList, ["foo".toList], by decide, by decide, by decide⟩
  have hnotnested : ¬ nestedInput (splitNl "<<<<<<< A\nfoo".toList) := by
    intro hn
    have hcon := (@malformed_rejection "<<<<<<< A\nfoo".toList).1 hn
    have hval : FindConflictChunks "<<<<<<< A\nfoo".toList ≠
        .error .nested := by decide
    exact hval hcon
  refine ⟨(@malformed_rejection "<<<<<<< A\nfoo".toList).2.1 hunc hnotnested,
    ?_, ?_⟩
  · exact (@malformed_rejection
      "<<<<<<< A\n<<<<<<< B\n>>>>>>> C".toList).1
      ⟨[], "<<<<<<< A".toList, ["<<<<<<< B".toList, ">>>>>>> C".toList],
        by decide, by decide,
        ⟨[], "<<<<<<< B".toList, [">>>>>>> C".toList], by decide, by decide,
          by decide⟩⟩
  · exact (@malformed_rejection "<<<<<<< A\nfoo".toList).2.2
      (Or.inl hunc) 0 "X".toList

/-! ### Claim C7: structural invariants of the chunk list -/

/-- C7: on every input on which `FindConflictChunks` succeeds with `n` chunks,
the chunk at list index `i` has id `i` (ids `0..n-1` in ascending order),
every chunk satisfies `1 ≤ start_line ≤ end_line`, and the spans
`[start_line, end_line]` are pairwise non-overlapping and strictly ascending
in `start_line`, matching ascending id. -/
theorem chunk_structural_invariants {content : Str} {cs : List ConflictChunk}
    (h : FindConflictChunks content = .ok cs) :
    (∀ i, i < cs.length →
      (cs.getD i zeroChunk).id = i ∧
      1 ≤ (cs.getD i zeroChunk).startLine ∧
      (cs.getD i zeroChunk).startLine ≤ (cs.getD i zeroChunk).endLine) ∧
    (∀ i j, i < cs.length → j < cs.length → i < j →
      (cs.getD i zeroChunk).endLine < (cs.getD j zeroChunk).startLine) := by
  obtain ⟨hids, hsp⟩ := scan_invariant h
  constructor
  · intro i hi
    have h1 := idsFrom_getD hids i hi
    have h2 := spansFrom_getD hsp i hi
    exact ⟨by omega, by omega, h2.2.1⟩
  · exact spansFrom_pairwise hsp

/-- Witness for C7 on a concrete two-region input. -/
theorem chunk_structural_invariants_witness :
    FindConflictChunks
        "a\n<<<<<<< A\nx\n=======\ny\n>>>>>>> B\nmid\n<<<<<<< A\nu\n=======\nv\n>>>>>>> B\nz".toList =
      .ok [⟨0, "x".toList, "y".toList, 2, 6⟩,
           ⟨1, "u".toList, "v".toList, 8, 12⟩] ∧
    ((∀ i, i < ([⟨0, "x".toList, "y".toList, 2, 6⟩,
           ⟨1, "u".toList, "v".toList, 8, 12⟩] : List ConflictChunk).length →
      (([⟨0, "x".toList, "y".toList, 2, 6⟩,
           ⟨1, "u".toList, "v".toList, 8, 12⟩] : List ConflictChunk).getD i
             zeroChunk).id = i ∧
      1 ≤ (([⟨0, "x".toList, "y".toList, 2, 6⟩,
           ⟨1, "u".toList, "v".toList, 8, 12⟩] : List ConflictChunk).getD i
             zeroChunk).startLine ∧
      (([⟨0, "x".toList, "y".toList, 2, 6⟩,
           ⟨1, "u".toList, "v".toList, 8, 12⟩] : List ConflictChunk).getD i
             zeroChunk).startLine ≤
        (([⟨0, "x".toList, "y".toList, 2, 6⟩,
           ⟨1, "u".toList, "v".toList, 8, 12⟩] : List ConflictChunk).getD i
             zeroChunk).endLine) ∧
    (∀ i j, i < ([⟨0, "x".toList, "y".toList, 2, 6⟩,
           ⟨1, "u".toList, "v".toList, 8, 12⟩] : List ConflictChunk).length →
      j < ([⟨0, "x".toList, "y".toList, 2, 6⟩,
           ⟨1, "u".toList, "v".toList, 8, 12⟩] : List ConflictChunk).length →
      i < j →
      (([⟨0, "x".toList, "y".toList, 2, 6⟩,
           ⟨1, "u".toList, "v".toList, 8, 12⟩] : List ConflictChunk).getD i
             zeroChunk).endLine <
        (([⟨0, "x".toList, "y".toList, 2, 6⟩,
           ⟨1, "u".toList, "v".toList, 8, 12⟩] : List ConflictChunk).getD j
             zeroChunk).startLine)) :=
  ⟨by decide,
    @chunk_structural_invariants
      "a\n<<<<<<< A\nx\n=======\ny\n>>>>>>> B\nmid\n<<<<<<< A\nu\n=======\nv\n>>>>>>> B\nz".toList
      [⟨0, "x".toList, "y".toList, 2, 6⟩, ⟨1, "u".toList, "v".toList, 8, 12⟩]
      (by decide)⟩

/-! ### Claim C10: stray divider and end markers outside a region are inert -/

/-- C10: whenever no line of the input begins with `<<<<<<<`,
`FindConflictChunks` returns the empty chunk list with no error — even when
the input contains lines beginning with `=======` or `>>>>>>>`; outside an
open region those lines are ordinary content, never a parse error and never
a chunk boundary. -/
theorem stray_markers_inert {content : Str}
    (h : ∀ l ∈ splitNl content, isStart l = false) :
    FindConflictChunks content = .ok [] :=
  scan_of_no_start h

/-- Witness for C10 on input holding stray divider and end-marker lines. -/
theorem stray_markers_inert_witness :
    (∀ l ∈ splitNl "=======\n>>>>>>> stale\nfoo".toList, isStart l = false) ∧
      FindConflictChunks "=======\n>>>>>>> stale\nfoo".toList = .ok [] :=
  ⟨by decide, stray_markers_inert (by decide)⟩

/-! ### Claim C5: out-of-range ids are rejected without touching the file -/

/-- C5: on a file whose content scans to `n` chunks, any id outside `[0, n)`
(negative, or `≥ n`, including every id when `n = 0`) makes
`ReplaceConflictChunk` fail with the chunk-not-found error, and the file
keeps its previous bytes: the write runs only on the success path. -/
theorem replace_out_of_range {content : Str} {cs : List ConflictChunk}
    {chunkID : Int} {newContent : Str}
    (h : FindConflictChunks content = .ok cs)
    (hid : chunkID < 0 ∨ (cs.length : Int) ≤ chunkID) :
    runReplace content chunkID newContent =
      (content, some (.chunkNotFound chunkID cs.length)) := by
  have hrep : ReplaceConflictChunk content chunkID newContent =
      .error (.chunkNotFound chunkID cs.length) := by
    unfold ReplaceConflictChunk
    rw [h]
    rcases hid with hid | hid
    · simp [hid]
    · simp [hid]
  simp [runReplace, hrep]

/-- Witness for C5: id 1 on a one-chunk file is rejected, file unchanged. -/
theorem replace_out_of_range_witness :
    FindConflictChunks "<<<<<<< A\nfoo\n=======\nbar\n>>>>>>> B".toList =
      .ok [⟨0, "foo".toList, "bar".toList, 1, 5⟩] ∧
    (((1 : Int) < 0) ∨ ((([⟨0, "foo".toList, "bar".toList, 1, 5⟩] :
        List ConflictChunk).length : Int) ≤ 1)) ∧
    runReplace "<<<<<<< A\nfoo\n=======\nbar\n>>>>>>> B".toList 1 "X".toList =
      ("<<<<<<< A\nfoo\n=======\nbar\n>>>>>>> B".toList,
        some (.chunkNotFound 1 1)) :=
  ⟨by decide, by decide,
    @replace_out_of_range "<<<<<<< A\nfoo\n=======\nbar\n>>>>>>> B".toList
      [⟨0, "foo".toList, "bar".toList, 1, 5⟩] 1 "X".toList
      (by decide) (by decide)⟩

/-! ### Claim C3: the probe against the scanner (corrected) -/

/-- Counterexample to C3 as stated: on `"x<<<<<<<"` the scanner reports no
structural error and returns the empty chunk list, yet the probe returns
true, because `strings.Contains` finds the marker in the middle of a line
while the scanner requires it as a line prefix. -/
theorem probe_scan_agreement_cex :
    HasMergeConflicts "x<<<<<<<".toList = true ∧
      FindConflictChunks "x<<<<<<<".toList = .ok [] :=
  ⟨by decide, by decide⟩

/-- C3 (amended): whenever the scan succeeds, a non-empty chunk list forces
the probe to return true, and a false probe forces the scan to return the
empty list; but a true probe does not imply a non-empty scan, since the
probe is a substring search and also fires on a marker that does not start
its line. -/
theorem probe_scan_agreement {content : Str} {cs : List ConflictChunk}
    (h : FindConflictChunks content = .ok cs) :
    (cs ≠ [] → HasMergeConflicts content = true) ∧
    (HasMergeConflicts content = false → cs = []) := by
  constructor
  · intro hne
    by_cases hstart : ∃ l ∈ splitNl content, isStart l = true
    · obtain ⟨l, hl, hs⟩ := hstart
      exact probe_true_of_start_line hl hs
    · push_neg at hstart
      have hall : ∀ l ∈ splitNl content, isStart l = false := fun l hl => by
        simpa using hstart l hl
      have h0 := scan_of_no_start hall
      rw [h] at h0
      exact absurd (Except.ok.inj h0) hne
  · intro hp
    have hall : ∀ l ∈ splitNl content, isStart l = false := by
      intro l hl
      by_contra hc
      replace hc : isStart l = true := by simpa using hc
      rw [probe_true_of_start_line hl hc] at hp
      cases hp
    have h0 := scan_of_no_start hall
    rw [h] at h0
    exact Except.ok.inj h0

/-- Witness for C3 (amended) on a concrete one-chunk input. -/
theorem probe_scan_agreement_witness :
    FindConflictChunks "p\n<<<<<<< A\nfoo\n=======\nbar\n>>>>>>> B".toList =
      .ok [⟨0, "foo".toList, "bar".toList, 2, 6⟩] ∧
    (([⟨0, "foo".toList, "bar".toList, 2, 6⟩] : List ConflictChunk) ≠ [] →
      HasMergeConflicts "p\n<<<<<<< A\nfoo\n=======\nbar\n>>>>>>> B".toList =
        true) ∧
    (HasMergeConflicts "p\n<<<<<<< A\nfoo\n=======\nbar\n>>>>>>> B".toList =
        false →
      ([⟨0, "foo".toList, "bar".toList, 2, 6⟩] : List ConflictChunk) = []) :=
  ⟨by decide,
    (@probe_scan_agreement "p\n<<<<<<< A\nfoo\n=======\nbar\n>>>>>>> B".toList
      [⟨0, "foo".toList, "bar".toList, 2, 6⟩] (by decide)).1,
    (@probe_scan_agreement "p\n<<<<<<< A\nfoo\n=======\nbar\n>>>>>>> B".toList
      [⟨0, "foo".toList, "bar".toList, 2, 6⟩] (by decide)).2⟩

end GitSynth
